import Mathlib

/-!
The program madlibs: placeholder resolution against a read-once dictionary

A shallow embedding of `src/madlibs.cpp` (functions `read_story`,
`read_dictionary`, `valid_key`, `scan_dictionary`, `bracketed_word` and
`out_story`), followed by theorems about it.

Conventions of the embedding.

* A `std::string` is a `List Char`; a `std::vector<entry>` is a `List entry`.
* A `std::ifstream` is the list of characters not yet read together with its
  `eofbit` and `failbit`; `extract` is `operator>>` into a `std::string`.
* A function that reads and mutates its reference arguments takes the old
  values and returns the new ones next to its result.
* An access the C++ standard leaves undefined (an index beyond the end of a
  string or vector, `pop_back` on an empty vector) makes the function return
  `none`; every other run returns `some`.
* `size_t` subtraction wraps modulo `2 ^ 64` (`sizeSub`).  The loop counter `x`
  of the shift loops is a natural number in `shiftLoop` and the `unsigned int`
  of the source, modulo `2 ^ 32`, in `shiftLoopU32`; the two scans agree on
  vectors of at most `2 ^ 32` entries (`scanLoopU32_eq`), and beyond that size
  the loop of the source does not end.
* `ispunct` and `isspace` are the classifications of the "C" locale.
-/

namespace Madlibs

/-- A string of the program. -/
abbrev Str := List Char

/-- The class `entry`: one key/value pair of the dictionary. -/
structure entry where
  key : Str
  value : Str
  deriving DecidableEq, Repr

/-- Number of values of `size_t`. -/
def SIZE_MOD : Nat := 2 ^ 64

/-- Subtraction of two `size_t` values (`word.length()-1`, `word.length()-2`,
`dictionary.size()-1`): the difference when it is not negative, and the value
wrapped modulo `2 ^ 64` otherwise. -/
def sizeSub (a b : Nat) : Nat :=
  if b ≤ a then a - b else (a + SIZE_MOD - b) % SIZE_MOD

/-- The expression `word[i]` on a `std::string`: the character at `i` below the
length, the terminating null character at `i = length`, undefined beyond. -/
def strAt (s : Str) (i : Nat) : Option Char :=
  if h : i < s.length then some (s.get ⟨i, h⟩)
  else if i = s.length then some (Char.ofNat 0)
  else none

/-- The call `word.substr(pos, n)`: throws when `pos` is beyond the length,
otherwise the at most `n` characters from `pos` on. -/
def substr (s : Str) (pos n : Nat) : Option Str :=
  if pos ≤ s.length then some ((s.drop pos).take n) else none

/-- The classification `ispunct` of `<ctype.h>` in the "C" locale: the printable
characters that are neither alphanumeric nor the space. -/
def ispunct (c : Char) : Bool :=
  let n := c.toNat
  (33 ≤ n && n ≤ 47) || (58 ≤ n && n ≤ 64) || (91 ≤ n && n ≤ 96) || (123 ≤ n && n ≤ 126)

/-- The expression `dictionary[i]` read on a `std::vector<entry>`. -/
def vecAt (d : List entry) (i : Nat) : Option entry :=
  if h : i < d.length then some (d.get ⟨i, h⟩) else none

/-- The assignment `dictionary[i] = e` of one element of a `std::vector<entry>`. -/
def vecSet (d : List entry) (i : Nat) (e : entry) : Option (List entry) :=
  if i < d.length then some (d.set i e) else none

/-- The call `dictionary.pop_back()`. -/
def pop_back (d : List entry) : Option (List entry) :=
  if d.isEmpty then none else some d.dropLast

/-- The function `valid_key`: a front-to-back scan of the snapshot for an entry
whose key is `word`. -/
def valid_key : List entry → Str → Bool
  | [], _ => false
  | e :: rest, word => if e.key = word then true else valid_key rest word

/-- The body of the shift loops of `scan_dictionary` at counter `x`:
`dictionary[x].key = dictionary[x+1].key;` then
`dictionary[x].value = dictionary[x+1].value;`. -/
def shiftBody (d : List entry) (x : Nat) : Option (List entry) := do
  let src ← vecAt d (x + 1)
  let dst ← vecAt d x
  let d1 ← vecSet d x { dst with key := src.key }
  let src1 ← vecAt d1 (x + 1)
  let dst1 ← vecAt d1 x
  vecSet d1 x { dst1 with value := src1.value }

/-- The shift loop `for (x; x < dictionary.size()-1; x++) { ... }` of
`scan_dictionary`, started at counter `x`; `fuel` bounds the number of
iterations.  The counter is a natural number here; `shiftLoopU32` is the loop
with the `unsigned int` counter of the source, and `scanLoopU32_eq` shows that
the two scans agree on every vector of at most `2 ^ 32` entries. -/
def shiftLoop : Nat → List entry → Nat → Option (List entry)
  | 0, _, _ => none
  | fuel + 1, d, x =>
    if x < sizeSub d.length 1 then
      match shiftBody d x with
      | some d1 => shiftLoop fuel d1 (x + 1)
      | none => none
    else some d

/-- The shift loop from `x = 0` followed by `dictionary.pop_back()`: the way
`scan_dictionary` removes the front entry. -/
def removeFront (d : List entry) : Option (List entry) := do
  let d1 ← shiftLoop (d.length + 1) d 0
  pop_back d1

/-- The `while (!dictionary.empty())` loop of `scan_dictionary` together with
the two statements after it; `fuel` bounds the number of iterations.  The
result is the returned string and the dictionary as the call leaves it. -/
def scanLoop : Nat → List entry → Str → Option (Str × List entry)
  | 0, _, _ => none
  | fuel + 1, dictionary, tempWord =>
    if dictionary.isEmpty then
      some ('[' :: tempWord ++ [']'], dictionary)
    else
      match vecAt dictionary 0 with
      | none => none
      | some e0 =>
        if e0.key = tempWord then
          match removeFront dictionary with
          | some d1 => some (e0.value, d1)
          | none => none
        else
          match removeFront dictionary with
          | some d1 => scanLoop fuel d1 tempWord
          | none => none

/-- The function `scan_dictionary`. -/
def scan_dictionary (dictionary : List entry) (tempWord : Str) : Option (Str × List entry) :=
  scanLoop (dictionary.length + 1) dictionary tempWord

/-- The condition of the first `if` of `bracketed_word`:
`word[0]=='[' && word[word.length()-1]==']'`, with the short circuit of `&&`. -/
def rule1 (word : Str) : Option Bool := do
  let c0 ← strAt word 0
  if c0 = '[' then
    let cl ← strAt word (sizeSub word.length 1)
    pure (decide (cl = ']'))
  else pure false

/-- The condition of the `else if` of `bracketed_word`:
`word[0]=='[' && word[word.length()-2]==']' && ispunct(word[word.length()-1])`,
with the short circuit of `&&`. -/
def rule2 (word : Str) : Option Bool := do
  let c0 ← strAt word 0
  if c0 = '[' then
    let c2 ← strAt word (sizeSub word.length 2)
    if c2 = ']' then
      let cl ← strAt word (sizeSub word.length 1)
      pure (ispunct cl)
    else pure false
  else pure false

/-- The function `bracketed_word`.  The result is the returned string and the
working dictionary as the call leaves it. -/
def bracketed_word (dictionary dictionary_copy : List entry) (word : Str) :
    Option (Str × List entry) := do
  if (← rule1 word) then
    let tempWord ← substr word 1 (sizeSub word.length 2)
    if valid_key dictionary_copy tempWord then
      let (valueNew, d1) ← scan_dictionary dictionary tempWord
      pure (valueNew, d1)
    else pure (word, dictionary)
  else if (← rule2 word) then
    let tempWord ← substr word 1 (sizeSub word.length 3)
    let punct ← substr word (sizeSub word.length 1) 1
    if valid_key dictionary_copy tempWord then
      let (r, d1) ← scan_dictionary dictionary tempWord
      pure (r ++ punct, d1)
    else pure (word, dictionary)
  else pure (word, dictionary)

/-- The calls `bracketed_word(dictionary, dictionary_copy, word)` made by the
loop of `read_story`, one per token and in order, each on the working
dictionary the previous one left.  The result is the list of resolved words
and the final working dictionary. -/
def resolve_tokens (dictionary dictionary_copy : List entry) :
    List Str → Option (List Str × List entry)
  | [] => some ([], dictionary)
  | word :: rest =>
    match bracketed_word dictionary dictionary_copy word with
    | none => none
    | some (newWord, d1) =>
      match resolve_tokens d1 dictionary_copy rest with
      | none => none
      | some (out, d2) => some (newWord :: out, d2)

/-- The dictionary `noun dog / verb runs`. -/
def dictNounVerb : List entry :=
  [⟨"noun".toList, "dog".toList⟩, ⟨"verb".toList, "runs".toList⟩]

/-- The dictionary `adj red / noun dog / verb runs`. -/
def dictAdjNounVerb : List entry :=
  [⟨"adj".toList, "red".toList⟩, ⟨"noun".toList, "dog".toList⟩, ⟨"verb".toList, "runs".toList⟩]

/-- The classification `isspace` of the "C" locale: the space and the
characters `\t`, `\n`, `\v`, `\f`, `\r`. -/
def isspace (c : Char) : Bool :=
  c.toNat == 32 || (9 ≤ c.toNat && c.toNat ≤ 13)

/-- An open `std::ifstream`: the characters not yet read and the two state
bits the program depends on. -/
structure ifstream where
  buf : Str
  eofbit : Bool
  failbit : Bool
  deriving DecidableEq, Repr

/-- A stream just opened on a file with the given contents. -/
def openStream (text : Str) : ifstream :=
  ⟨text, false, false⟩

/-- The extraction `in >> word` into a `std::string`.  A stream that is not
good only gets `failbit` and leaves `word` as it was.  Otherwise leading
whitespace is skipped; when the end of the file is met while skipping, `eofbit`
and `failbit` are set and `word` is left as it was; otherwise `word` becomes
the characters up to the next whitespace, and `eofbit` is set when the end of
the file stops the extraction. -/
def extract (inp : ifstream) (word : Str) : ifstream × Str :=
  if inp.eofbit || inp.failbit then (⟨inp.buf, inp.eofbit, true⟩, word)
  else
    let rest := inp.buf.dropWhile isspace
    if rest.isEmpty then (⟨[], true, true⟩, word)
    else
      let w := rest.takeWhile (fun c => !isspace c)
      let rest2 := rest.dropWhile (fun c => !isspace c)
      (⟨rest2, rest2.isEmpty, false⟩, w)

/-- The loop of `read_dictionary`: `while (!inDictionary.eof())` with the body
`inDictionary>>key>>value;` and the `push_back` of the pair; `fuel` bounds the
number of iterations. -/
def dictLoop : Nat → List entry → Str → Str → ifstream → Option (List entry)
  | 0, _, _, _, _ => none
  | fuel + 1, dictionary, key, value, inDictionary =>
    if inDictionary.eofbit then some dictionary
    else
      let r1 := extract inDictionary key
      let r2 := extract r1.1 value
      dictLoop fuel (dictionary ++ [⟨r1.2, r2.2⟩]) r1.2 r2.2 r2.1

/-- The function `read_dictionary`.  The result is the pair of `dictionary` and
`dictionary_copy` as the call leaves them. -/
def read_dictionary (dictionary _dictionary_copy : List entry) (inDictionary : ifstream) :
    Option (List entry × List entry) :=
  match dictLoop (inDictionary.buf.length + 2) dictionary [] [] inDictionary with
  | none => none
  | some d => some (d, d)

/-- Lines 221 to 228 of `read_story`: two spaces when `word[word.length()-1]`
is `?` or `.`, one space otherwise. -/
def spacesFor (word : Str) : Option Str := do
  let c ← strAt word (sizeSub word.length 1)
  if c = '?' ∨ c = '.' then pure [' ', ' '] else pure [' ']

/-- Lines 243 to 249 of `read_story`: `sentence=word + " ";` followed by the
test of the last character of `sentence` for `.` or `?`, which appends two more
spaces. -/
def wrapSentence (word : Str) : Option Str := do
  let sentence := word ++ [' ']
  let c ← strAt sentence (sizeSub sentence.length 1)
  if c = '.' ∨ c = '?' then pure (sentence ++ [' '] ++ [' ']) else pure sentence

/-- Lines 235 to 250 of `read_story`: the word and its spaces are appended to
`sentence` when the three lengths sum to at most 70; otherwise `sentence` and
the marker `"\n"` are pushed on `story` and a new `sentence` is started.  The
result is the new `story` and the new `sentence`.  (The lengths are those of
strings held in memory, so their sum stays below `2 ^ 64`.) -/
def appendWord (story : List Str) (sentence word spaces : Str) : Option (List Str × Str) :=
  if sentence.length + word.length + spaces.length ≤ 70 then
    some (story, sentence ++ word ++ spaces)
  else
    match wrapSentence word with
    | none => none
    | some s => some (story ++ [sentence, ['\n']], s)

/-- The variables of `read_story` that live across iterations of its loop. -/
structure StoryState where
  story : List Str
  dictionary : List entry
  word : Str
  sentence : Str
  deriving DecidableEq, Repr

/-- The body of the loop of `read_story` after the extraction has left `w` in
`word`: lines 221 to 250. -/
def storyBody (dictionary_copy : List entry) (st : StoryState) (w : Str) :
    Option StoryState :=
  match spacesFor w with
  | none => none
  | some spaces =>
    match bracketed_word st.dictionary dictionary_copy w with
    | none => none
    | some (newWord, d1) =>
      match appendWord st.story st.sentence newWord spaces with
      | none => none
      | some (story1, sentence1) => some ⟨story1, d1, newWord, sentence1⟩

/-- The loop `while (!inStory.eof())` of `read_story`; `fuel` bounds the number
of iterations. -/
def storyLoop : Nat → List entry → StoryState → ifstream → Option StoryState
  | 0, _, _, _ => none
  | fuel + 1, dictionary_copy, st, inStory =>
    if inStory.eofbit then some st
    else
      let r := extract inStory st.word
      match storyBody dictionary_copy st r.2 with
      | none => none
      | some st1 => storyLoop fuel dictionary_copy st1 r.1

/-- The function `read_story`.  The result is `story` and `dictionary` as the
call leaves them. -/
def read_story (story : List Str) (dictionary dictionary_copy : List entry)
    (inStory : ifstream) : Option (List Str × List entry) :=
  match storyLoop (inStory.buf.length + 2) dictionary_copy ⟨story, dictionary, [], []⟩
      inStory with
  | none => none
  | some st => some (st.story ++ [st.sentence], st.dictionary)

/-- Auxiliary for the proofs: the body of the loop of `read_story` applied to
the given words one after the other.  The loop of `read_story` itself is
`storyLoop`; the two are related for texts without trailing whitespace by
`storyLoop_unwordsText`. -/
def storyWords (dictionary_copy : List entry) : StoryState → List Str → Option StoryState
  | st, [] => some st
  | st, w :: ws =>
    match storyBody dictionary_copy st w with
    | none => none
    | some st1 => storyWords dictionary_copy st1 ws

/-- The function `out_story`: the elements of `story` written one after the
other. -/
def out_story (story : List Str) : Str :=
  story.flatten

/-! ## The scan with the counter of the source -/

/-- Number of values of `unsigned int`, the type of the counter `x` of the
loops of `scan_dictionary`. -/
def UINT_MOD : Nat := 2 ^ 32

/-- How a run with bounded fuel ends: with a result, with an access the C++
standard leaves undefined or a wrap-around of `dictionary.size()-1`, or still
running when the fuel is used up. -/
inductive Run (α : Type) where
  | done (a : α)
  | fault
  | timeout
  deriving DecidableEq, Repr

/-- The expression `dictionary.size()-1` where a wrap-around counts as a fault:
`none` on size `0`. -/
def sizePredStrict (n : Nat) : Option Nat :=
  if 1 ≤ n then some (n - 1) else none

/-- The body of the shift loops of `scan_dictionary` at counter `x`, with the
index `x+1` computed in `unsigned int`, so modulo `2 ^ 32`. -/
def shiftBodyU32 (d : List entry) (x : Nat) : Option (List entry) := do
  let src ← vecAt d ((x + 1) % UINT_MOD)
  let dst ← vecAt d x
  let d1 ← vecSet d x { dst with key := src.key }
  let src1 ← vecAt d1 ((x + 1) % UINT_MOD)
  let dst1 ← vecAt d1 x
  vecSet d1 x { dst1 with value := src1.value }

/-- The shift loop `for (unsigned int x; x < dictionary.size()-1; x++)` of
`scan_dictionary` with the counter of the source: `x++` is taken modulo
`2 ^ 32` and compared with the `size_t` bound.  An index out of bounds and a
wrap-around of `dictionary.size()-1` end the run with `fault`. -/
def shiftLoopU32 : Nat → List entry → Nat → Run (List entry)
  | 0, _, _ => Run.timeout
  | fuel + 1, d, x =>
    match sizePredStrict d.length with
    | none => Run.fault
    | some bound =>
      if x < bound then
        match shiftBodyU32 d x with
        | some d1 => shiftLoopU32 fuel d1 ((x + 1) % UINT_MOD)
        | none => Run.fault
      else Run.done d

/-- The shift loop from `x = 0` followed by `dictionary.pop_back()`, with the
counter of the source. -/
def removeFrontU32 (fuel : Nat) (d : List entry) : Run (List entry) :=
  match shiftLoopU32 fuel d 0 with
  | Run.done d1 =>
    match pop_back d1 with
    | some d2 => Run.done d2
    | none => Run.fault
  | Run.fault => Run.fault
  | Run.timeout => Run.timeout

/-- The function `scan_dictionary` with the counter of the source; `fuel`
bounds the number of iterations of the `while` loop and of each shift loop. -/
def scanLoopU32 : Nat → List entry → Str → Run (Str × List entry)
  | 0, _, _ => Run.timeout
  | fuel + 1, dictionary, tempWord =>
    if dictionary.isEmpty then
      Run.done ('[' :: tempWord ++ [']'], dictionary)
    else
      match vecAt dictionary 0 with
      | none => Run.fault
      | some e0 =>
        if e0.key = tempWord then
          match removeFrontU32 (fuel + 1) dictionary with
          | Run.done d1 => Run.done (e0.value, d1)
          | Run.fault => Run.fault
          | Run.timeout => Run.timeout
        else
          match removeFrontU32 (fuel + 1) dictionary with
          | Run.done d1 => scanLoopU32 fuel d1 tempWord
          | Run.fault => Run.fault
          | Run.timeout => Run.timeout

/-- A working queue of `2 ^ 32 + 1` entries `noun dog`. -/
def bigQueue : List entry :=
  List.replicate (UINT_MOD + 1) ⟨"noun".toList, "dog".toList⟩

/-! ## Notions of the specification -/

/-- The spaces the specification puts behind a word: two when the original
token ends in `.` or `?`, one otherwise. -/
def trailingSpaces (token : Str) : Str :=
  if token.getLast? = some '.' ∨ token.getLast? = some '?' then [' ', ' '] else [' ']

/-- The single line made of the resolved words, each followed by the spaces
its original token asks for. -/
def lineOf : List Str → List Str → Str
  | t :: ts, w :: ws => w ++ trailingSpaces t ++ lineOf ts ws
  | _, _ => []

/-- Splitting on whitespace, with the word collected so far as first
argument. -/
def splitAux : Str → Str → List Str
  | cur, [] => if cur = [] then [] else [cur]
  | cur, c :: cs =>
    if isspace c then
      if cur = [] then splitAux [] cs else cur :: splitAux [] cs
    else splitAux (cur ++ [c]) cs

/-- The whitespace-delimited words of a text. -/
def splitWhitespace (text : Str) : List Str :=
  splitAux [] text

/-- The text made of the given tokens separated by single spaces. -/
def unwordsText : List Str → Str
  | [] => []
  | [t] => t
  | t :: t2 :: ts => t ++ ' ' :: unwordsText (t2 :: ts)

/-- The function `read_story` called on the story file whose text is the given
tokens separated by single spaces, with nothing behind the last token: the
loop `while (!inStory.eof())` of `read_story` runs on that text. -/
def read_story_tokens (story : List Str) (dictionary dictionary_copy : List entry)
    (tokens : List Str) : Option (List Str × List entry) :=
  read_story story dictionary dictionary_copy (openStream (unwordsText tokens))

/-! ## Example stories -/

/-- Seven words of nine letters, which fill a line of 70 characters, and then
the word `end.`. -/
def storyFullLine : List Str :=
  List.replicate 7 (List.replicate 9 'a') ++ ["end.".toList]

/-- A word of 70 letters. -/
def wordSeventy : Str :=
  List.replicate 70 'a'

/-! ## Removing the front entry -/

theorem sizeSub_of_le {a b : Nat} (h : b ≤ a) : sizeSub a b = a - b := by
  simp [sizeSub, h]

theorem sizeSub_succ_one (n : Nat) : sizeSub (n + 1) 1 = n := by
  simp [sizeSub]

theorem vecAt_eq_getElem? (d : List entry) (i : Nat) : vecAt d i = d[i]? := by
  unfold vecAt
  split
  · rename_i h
    simp [List.getElem?_eq_getElem h]
  · rename_i h
    simp [List.getElem?_eq_none (Nat.le_of_not_lt h)]

theorem vecAt_append_cons (pre : List entry) (a : entry) (rest : List entry) :
    vecAt (pre ++ a :: rest) pre.length = some a := by
  rw [vecAt_eq_getElem?, List.getElem?_append_right (Nat.le_refl _)]
  simp

theorem vecAt_append_cons_succ (pre : List entry) (a b : entry) (rest : List entry) :
    vecAt (pre ++ a :: b :: rest) (pre.length + 1) = some b := by
  have h := vecAt_append_cons (pre ++ [a]) b rest
  simpa using h

theorem vecSet_append_cons (pre : List entry) (a c : entry) (rest : List entry) :
    vecSet (pre ++ a :: rest) pre.length c = some (pre ++ c :: rest) := by
  simp [vecSet]

/-- One iteration of the shift loop copies the entry at `x + 1` over the entry
at `x`. -/
theorem shiftBody_append (pre : List entry) (a b : entry) (rest : List entry) :
    shiftBody (pre ++ a :: b :: rest) pre.length = some (pre ++ b :: b :: rest) := by
  simp [shiftBody, vecAt_append_cons, vecAt_append_cons_succ, vecSet_append_cons]

/-- The shift loop started at counter `|pre|` moves every later entry one place
to the front and leaves one entry at the back. -/
theorem shiftLoop_append (rest : List entry) :
    ∀ (pre : List entry) (a : entry) (fuel : Nat), rest.length < fuel →
      ∃ z, shiftLoop fuel (pre ++ a :: rest) pre.length = some (pre ++ rest ++ [z]) := by
  induction rest with
  | nil =>
    intro pre a fuel hf
    obtain ⟨f, rfl⟩ : ∃ f, fuel = f + 1 := ⟨fuel - 1, by omega⟩
    refine ⟨a, ?_⟩
    simp [shiftLoop, sizeSub_succ_one]
  | cons b rest ih =>
    intro pre a fuel hf
    obtain ⟨f, rfl⟩ : ∃ f, fuel = f + 1 := ⟨fuel - 1, by omega⟩
    have hf2 : rest.length < f := by simp at hf; omega
    obtain ⟨z, hz⟩ := ih (pre ++ [b]) b f hf2
    refine ⟨z, ?_⟩
    have h1 : pre.length < sizeSub (pre ++ a :: b :: rest).length 1 := by
      rw [sizeSub_of_le (by simp; omega)]; simp
    have hz2 : shiftLoop f (pre ++ b :: b :: rest) (pre.length + 1)
        = some (pre ++ b :: (rest ++ [z])) := by
      simpa using hz
    simp only [shiftLoop, h1, if_true, shiftBody_append, hz2]
    simp

/-- Shifting and `pop_back` remove exactly the front entry. -/
theorem removeFront_cons (a : entry) (rest : List entry) :
    removeFront (a :: rest) = some rest := by
  obtain ⟨z, hz⟩ := shiftLoop_append rest [] a ((a :: rest).length + 1) (by simp; omega)
  simp only [List.nil_append, List.length_nil] at hz
  simp only [removeFront, hz, pop_back]
  simp

/-! ## The scan of the working dictionary -/

/-- A list with an entry of key `k` splits at the first such entry. -/
theorem exists_first_key (Q : List entry) (k : Str) (h : ∃ e ∈ Q, e.key = k) :
    ∃ pre e rest, Q = pre ++ e :: rest ∧ (∀ x ∈ pre, x.key ≠ k) ∧ e.key = k := by
  induction Q with
  | nil => simp at h
  | cons a Q ih =>
    by_cases ha : a.key = k
    · exact ⟨[], a, Q, rfl, by simp, ha⟩
    · have h2 : ∃ e ∈ Q, e.key = k := by
        obtain ⟨e, he, hk⟩ := h
        rcases List.mem_cons.mp he with rfl | he
        · exact absurd hk ha
        · exact ⟨e, he, hk⟩
      obtain ⟨pre, e, rest, hQ, hpre, he⟩ := ih h2
      refine ⟨a :: pre, e, rest, by simp [hQ], ?_, he⟩
      intro x hx
      rcases List.mem_cons.mp hx with rfl | hx
      · exact ha
      · exact hpre x hx

theorem scanLoop_found (k : Str) (e : entry) (rest : List entry) (he : e.key = k)
    (pre : List entry) :
    ∀ fuel, pre.length < fuel → (∀ x ∈ pre, x.key ≠ k) →
      scanLoop fuel (pre ++ e :: rest) k = some (e.value, rest) := by
  induction pre with
  | nil =>
    intro fuel hf _
    obtain ⟨f, rfl⟩ : ∃ f, fuel = f + 1 := ⟨fuel - 1, by omega⟩
    simp [scanLoop, vecAt, he, removeFront_cons]
  | cons a pre ih =>
    intro fuel hf hpre
    obtain ⟨f, rfl⟩ : ∃ f, fuel = f + 1 := ⟨fuel - 1, by omega⟩
    have ha : a.key ≠ k := hpre a (by simp)
    have hf2 : pre.length < f := by simp at hf; omega
    have hrec := ih f hf2 (fun x hx => hpre x (by simp [hx]))
    simp [scanLoop, vecAt, ha, removeFront_cons, hrec]

theorem scanLoop_absent (k : Str) (Q : List entry) :
    ∀ fuel, Q.length < fuel → (∀ x ∈ Q, x.key ≠ k) →
      scanLoop fuel Q k = some ('[' :: k ++ [']'], []) := by
  induction Q with
  | nil =>
    intro fuel hf _
    obtain ⟨f, rfl⟩ : ∃ f, fuel = f + 1 := ⟨fuel - 1, by omega⟩
    simp [scanLoop]
  | cons a Q ih =>
    intro fuel hf hQ
    obtain ⟨f, rfl⟩ : ∃ f, fuel = f + 1 := ⟨fuel - 1, by omega⟩
    have ha : a.key ≠ k := hQ a (by simp)
    have hf2 : Q.length < f := by simp at hf; omega
    have hrec := ih f hf2 (fun x hx => hQ x (by simp [hx]))
    simp [scanLoop, vecAt, ha, removeFront_cons, hrec]

/-- The scan returns the value of the first entry with the key and leaves the
entries behind it. -/
theorem scan_dictionary_found (pre rest : List entry) (e : entry) (k : Str)
    (hpre : ∀ x ∈ pre, x.key ≠ k) (he : e.key = k) :
    scan_dictionary (pre ++ e :: rest) k = some (e.value, rest) :=
  scanLoop_found k e rest he pre _ (by simp; omega) hpre

/-- Without an entry of the key the scan empties the dictionary and returns the
key in brackets. -/
theorem scan_dictionary_absent (Q : List entry) (k : Str) (h : ∀ x ∈ Q, x.key ≠ k) :
    scan_dictionary Q k = some ('[' :: k ++ [']'], []) :=
  scanLoop_absent k Q _ (by omega) h

theorem strAt_cons_zero (c : Char) (s : Str) : strAt (c :: s) 0 = some c := by
  simp [strAt]

theorem strAt_append_cons (pre : Str) (c : Char) (rest : Str) :
    strAt (pre ++ c :: rest) pre.length = some c := by
  have h : pre.length < (pre ++ c :: rest).length := by simp
  simp only [strAt, h, dite_true, List.get_eq_getElem]
  rw [List.getElem_append_right (Nat.le_refl _)]
  simp

/-- A token whose first character is not `[` fails both tests of
`bracketed_word` on `word[0]` alone and is returned as it is. -/
theorem bracketed_word_of_head_ne (Q D : List entry) (word : Str)
    (h : word.head? ≠ some '[') :
    bracketed_word Q D word = some (word, Q) := by
  cases word with
  | nil =>
    have h0 : strAt [] 0 = some (Char.ofNat 0) := by simp [strAt]
    have hc : Char.ofNat 0 ≠ '[' := by decide
    simp [bracketed_word, rule1, rule2, h0, hc]
  | cons c s =>
    have hc : c ≠ '[' := by simpa using h
    simp [bracketed_word, rule1, rule2, strAt_cons_zero, hc]

/-- C6: a token that does not start with `[` (the empty token included) is
returned unchanged and the working queue is left unchanged. -/
theorem bracketed_word_plain (Q D : List entry) (word : Str)
    (h : word.head? ≠ some '[') :
    bracketed_word Q D word = some (word, Q) :=
  bracketed_word_of_head_ne Q D word h

/-- The plain word `runs.` against the dictionary `noun dog / verb runs`. -/
theorem bracketed_word_plain_witness :
    "runs.".toList.head? ≠ some '[' ∧
    bracketed_word dictNounVerb dictNounVerb "runs.".toList
      = some ("runs.".toList, dictNounVerb) :=
  ⟨by decide, bracketed_word_plain dictNounVerb dictNounVerb "runs.".toList (by decide)⟩

theorem sizeSub_one_two : sizeSub 1 2 = 18446744073709551615 := by
  decide

theorem strAt_one_char_wrapped (c : Char) : strAt [c] (sizeSub 1 2) = none := by
  rw [sizeSub_one_two]
  unfold strAt
  rw [dif_neg (by simp), if_neg (by simp)]

theorem rule1_lone_bracket : rule1 ['['] = some false := by
  decide

theorem rule2_lone_bracket : rule2 ['['] = none := by
  decide

/-- C7, the code at the failing input: for a one-character token `c`,
`bracketed_word` returns the token unchanged when `c` is not `[`; for the token
`[` the test `word[word.length()-2]==']'` is evaluated, the index wraps to
`2 ^ 64 - 1`, the read is outside the token and the call has no defined
result. -/
theorem bracketed_word_one_char (Q D : List entry) (c : Char) :
    sizeSub [c].length 2 = 18446744073709551615 ∧
    strAt [c] (sizeSub [c].length 2) = none ∧
    bracketed_word Q D [c] = if c = '[' then none else some ([c], Q) := by
  refine ⟨sizeSub_one_two, strAt_one_char_wrapped c, ?_⟩
  by_cases hc : c = '['
  · subst hc
    simp [bracketed_word, rule1_lone_bracket, rule2_lone_bracket]
  · rw [if_neg hc]
    exact bracketed_word_of_head_ne Q D [c] (by simpa using hc)

/-! ## Runs of calls -/

/-- The scan always returns, and what it leaves is a suffix of the working
dictionary it was given. -/
theorem scan_dictionary_suffix (Q : List entry) (k : Str) :
    ∃ r Q1, scan_dictionary Q k = some (r, Q1) ∧ Q1 <:+ Q := by
  by_cases h : ∃ e ∈ Q, e.key = k
  · obtain ⟨pre, e, rest, rfl, hpre, he⟩ := exists_first_key Q k h
    refine ⟨e.value, rest, scan_dictionary_found pre rest e k hpre he, ?_⟩
    exact ⟨pre ++ [e], by simp⟩
  · have h2 : ∀ e ∈ Q, e.key ≠ k := fun e he hk => h ⟨e, he, hk⟩
    exact ⟨_, [], scan_dictionary_absent Q k h2, List.nil_suffix⟩

theorem spacesFor_concat (init : Str) (c : Char) :
    spacesFor (init ++ [c]) = some (if c = '?' ∨ c = '.' then [' ', ' '] else [' ']) := by
  have h1 : sizeSub (init ++ [c]).length 1 = init.length := by
    rw [sizeSub_of_le (by simp)]; simp
  have h2 : strAt (init ++ [c]) init.length = some c := strAt_append_cons init c []
  unfold spacesFor
  rw [h1, h2]
  by_cases h : c = '?' ∨ c = '.' <;> simp [h]

/-- On a non-empty word the spaces chosen by `read_story` are those of the
specification. -/
theorem spacesFor_eq (w : Str) (h : w ≠ []) : spacesFor w = some (trailingSpaces w) := by
  obtain ⟨init, c, rfl⟩ : ∃ init c, w = init ++ [c] :=
    ⟨w.dropLast, w.getLast h, (List.dropLast_append_getLast h).symm⟩
  rw [spacesFor_concat]
  unfold trailingSpaces
  by_cases h1 : c = '?' ∨ c = '.'
  · have h2 : c = '.' ∨ c = '?' := h1.symm
    simp [h1, h2]
  · have h2 : ¬ (c = '.' ∨ c = '?') := fun h => h1 h.symm
    simp [h1, h2]

/-- The buffer started after a line break is the word and one space: the test
of line 246 reads the space just appended. -/
theorem wrapSentence_eq (word : Str) : wrapSentence word = some (word ++ [' ']) := by
  have h1 : sizeSub (word ++ [' ']).length 1 = word.length := by
    rw [sizeSub_of_le (by simp)]; simp
  have h2 : strAt (word ++ [' ']) word.length = some ' ' := strAt_append_cons word ' ' []
  have h3 : ¬ ((' ' : Char) = '.' ∨ (' ' : Char) = '?') := by decide
  unfold wrapSentence
  simp only [h1, h2]
  simp [h3]

theorem appendWord_fits (story : List Str) (sentence word spaces : Str)
    (h : sentence.length + word.length + spaces.length ≤ 70) :
    appendWord story sentence word spaces = some (story, sentence ++ word ++ spaces) := by
  simp [appendWord, h]

theorem appendWord_wraps (story : List Str) (sentence word spaces : Str)
    (h : 70 < sentence.length + word.length + spaces.length) :
    appendWord story sentence word spaces
      = some (story ++ [sentence, ['\n']], word ++ [' ']) := by
  have h2 : ¬ (sentence.length + word.length + spaces.length ≤ 70) := by omega
  simp [appendWord, h2, wrapSentence_eq]

/-- C12, the code at the failing input: for every word the buffer started
after a line break is the word followed by one space, never by three, because
line 246 tests the last character of `word + " "`.  On the story of seven
nine-letter words followed by `end.`, the line of 70 characters is committed
and the new buffer is `end.` with one space. -/
theorem read_story_wrap_buffer (word : Str) :
    wrapSentence word = some (word ++ [' ']) ∧
    wrapSentence "end.".toList ≠ some "end.   ".toList ∧
    read_story_tokens [] [] [] storyFullLine
      = some ([(List.replicate 7 "aaaaaaaaa ".toList).flatten, ['\n'], "end. ".toList], []) :=
  ⟨wrapSentence_eq word, by decide, by decide⟩

/-- C13: for every line buffer `b`, resolved word `w` and spaces `s`, the step
of `read_story` returns; it commits `b` and the break marker exactly when
`|b| + |w| + |s| > 70`, and with a sum of at most 70 (70 included) it leaves the
committed lines as they are and appends `w` and `s` to `b`. -/
theorem appendWord_break_iff (story : List Str) (b w s : Str) :
    ∃ story1 b1, appendWord story b w s = some (story1, b1) ∧
      (70 < b.length + w.length + s.length ↔ story1 = story ++ [b, ['\n']]) ∧
      (b.length + w.length + s.length ≤ 70 → story1 = story ∧ b1 = b ++ w ++ s) ∧
      (70 < b.length + w.length + s.length → b1 = w ++ [' ']) := by
  by_cases h : b.length + w.length + s.length ≤ 70
  · refine ⟨story, b ++ w ++ s, appendWord_fits story b w s h, ?_, fun _ => ⟨rfl, rfl⟩, ?_⟩
    · constructor
      · intro h2; omega
      · intro h2
        have h3 := congrArg List.length h2
        simp at h3
    · intro h2; omega
  · have h2 : 70 < b.length + w.length + s.length := by omega
    refine ⟨story ++ [b, ['\n']], w ++ [' '], appendWord_wraps story b w s h2, ?_, ?_, fun _ => rfl⟩
    · exact ⟨fun _ => rfl, fun _ => h2⟩
    · intro h3; omega

/-- The buffer of 69 characters takes the one-character word `a` and one space
without a break. -/
theorem appendWord_break_iff_witness :
    ∃ story1 b1, appendWord [] (List.replicate 68 'x') ['a'] [' '] = some (story1, b1) ∧
      (70 < (List.replicate 68 'x').length + ['a'].length + [' '].length
        ↔ story1 = [] ++ [List.replicate 68 'x', ['\n']]) ∧
      ((List.replicate 68 'x').length + ['a'].length + [' '].length ≤ 70 →
        story1 = [] ∧ b1 = List.replicate 68 'x' ++ ['a'] ++ [' ']) ∧
      (70 < (List.replicate 68 'x').length + ['a'].length + [' '].length → b1 = ['a'] ++ [' ']) :=
  appendWord_break_iff [] (List.replicate 68 'x') ['a'] [' ']

/-- C14, the code at the failing input: a story that is one word of 70 letters
makes `read_story` commit an empty line, a break marker and a final line of 71
characters, from the token list as well as from the text. -/
theorem read_story_long_word :
    read_story_tokens [] [] [] [wordSeventy] = some ([[], ['\n'], wordSeventy ++ [' ']], []) ∧
    read_story [] [] [] (openStream wordSeventy) = some ([[], ['\n'], wordSeventy ++ [' ']], []) ∧
    (wordSeventy ++ [' ']).length = 71 :=
  ⟨by decide, by decide, by decide⟩

/-- C16, the code at the failing input: the text `hi` gives one word, but the
text `hi` followed by a newline makes the loop run once more after the failed
extraction and append `hi` a second time, and on the empty text the loop body
reads `word[word.length()-1]` of the empty `word`, outside the string. -/
theorem read_story_trailing_newline :
    read_story [] dictNounVerb dictNounVerb (openStream "hi".toList)
      = some (["hi ".toList], dictNounVerb) ∧
    read_story [] dictNounVerb dictNounVerb (openStream "hi\n".toList)
      = some (["hi hi ".toList], dictNounVerb) ∧
    splitWhitespace "hi\n".toList = ["hi".toList] ∧
    read_story [] dictNounVerb dictNounVerb (openStream []) = none ∧
    spacesFor [] = none :=
  ⟨by decide, by decide, by decide, by decide, by decide⟩

/-- C17, the code at the failing input: the text `noun dog / verb runs` without
a final newline gives the two entries, but with a final newline the loop runs
once more after the failed extractions and pushes `verb runs` a second time; on
the empty text it pushes one entry of two empty strings. -/
theorem read_dictionary_trailing_newline :
    read_dictionary [] [] (openStream "noun dog\nverb runs".toList)
      = some (dictNounVerb, dictNounVerb) ∧
    read_dictionary [] [] (openStream "noun dog\nverb runs\n".toList)
      = some (dictNounVerb ++ [⟨"verb".toList, "runs".toList⟩],
          dictNounVerb ++ [⟨"verb".toList, "runs".toList⟩]) ∧
    splitWhitespace "noun dog\nverb runs\n".toList
      = ["noun".toList, "dog".toList, "verb".toList, "runs".toList] ∧
    read_dictionary [] [] (openStream []) = some ([⟨[], []⟩], [⟨[], []⟩]) :=
  ⟨by decide, by decide, by decide, by decide⟩

/-! ## Termination and bounds of the scan -/

theorem UINT_MOD_pos : 0 < UINT_MOD := by
  unfold UINT_MOD; norm_num

theorem sizePredStrict_succ (n : Nat) : sizePredStrict (n + 1) = some n := by
  simp [sizePredStrict]

theorem vecAt_some (d : List entry) (i : Nat) (h : i < d.length) :
    ∃ e, vecAt d i = some e := by
  simp [vecAt, h]

theorem vecSet_some (d : List entry) (i : Nat) (e : entry) (h : i < d.length) :
    vecSet d i e = some (d.set i e) := by
  simp [vecSet, h]

/-- While the index `x+1` does not wrap, the body with the counter of the
source is the body with the natural-number counter. -/
theorem shiftBodyU32_eq (d : List entry) (x : Nat) (h : x + 1 < UINT_MOD) :
    shiftBodyU32 d x = shiftBody d x := by
  unfold shiftBodyU32 shiftBody
  rw [Nat.mod_eq_of_lt h]

/-- With both indices in bounds the body returns a vector of the same size. -/
theorem shiftBodyU32_length (d : List entry) (x : Nat) (hx : x < d.length)
    (hy : (x + 1) % UINT_MOD < d.length) :
    ∃ d1, shiftBodyU32 d x = some d1 ∧ d1.length = d.length := by
  obtain ⟨src, hsrc⟩ := vecAt_some d _ hy
  obtain ⟨dst, hdst⟩ := vecAt_some d x hx
  have hlen : (d.set x ⟨src.key, dst.value⟩).length = d.length := by simp
  obtain ⟨src1, hsrc1⟩ := vecAt_some (d.set x ⟨src.key, dst.value⟩) ((x + 1) % UINT_MOD)
    (by rw [hlen]; exact hy)
  obtain ⟨dst1, hdst1⟩ := vecAt_some (d.set x ⟨src.key, dst.value⟩) x (by rw [hlen]; exact hx)
  refine ⟨(d.set x ⟨src.key, dst.value⟩).set x ⟨dst1.key, src1.value⟩, ?_, by simp⟩
  unfold shiftBodyU32
  simp only [hsrc, hdst, Option.bind_eq_bind, Option.some_bind, vecSet_some d x _ hx, hsrc1,
    hdst1, vecSet_some (d.set x ⟨src.key, dst.value⟩) x _ (by rw [hlen]; exact hx)]

/-- On a vector of `2 ^ 32 + 1` entries the shift loop of the source never
leaves: the counter stays below `2 ^ 32`, the bound is `2 ^ 32`, and every
access is within bounds. -/
theorem shiftLoopU32_spin :
    ∀ (fuel : Nat) (d : List entry) (x : Nat), d.length = UINT_MOD + 1 → x < UINT_MOD →
      shiftLoopU32 fuel d x = Run.timeout := by
  intro fuel
  induction fuel with
  | zero => intro d x _ _; rfl
  | succ f ih =>
    intro d x hd hx
    have hy : (x + 1) % UINT_MOD < UINT_MOD := Nat.mod_lt _ UINT_MOD_pos
    obtain ⟨d1, hbody, hlen⟩ := shiftBodyU32_length d x (by omega) (by omega)
    have hrec := ih d1 ((x + 1) % UINT_MOD) (by omega) hy
    have hb : sizePredStrict d.length = some UINT_MOD := by
      rw [hd, sizePredStrict_succ]
    simp only [shiftLoopU32, hb, hx, if_true, hbody, hrec]

/-- On a vector of at most `2 ^ 32` entries the shift loop of the source moves
every later entry one place to the front and leaves one entry at the back. -/
theorem shiftLoopU32_append (rest : List entry) :
    ∀ (pre : List entry) (a : entry) (fuel : Nat), rest.length < fuel →
      (pre ++ a :: rest).length ≤ UINT_MOD →
      ∃ z, shiftLoopU32 fuel (pre ++ a :: rest) pre.length
        = Run.done (pre ++ rest ++ [z]) := by
  induction rest with
  | nil =>
    intro pre a fuel hf _
    obtain ⟨f, rfl⟩ : ∃ f, fuel = f + 1 := ⟨fuel - 1, by omega⟩
    refine ⟨a, ?_⟩
    simp [shiftLoopU32, sizePredStrict_succ]
  | cons b rest ih =>
    intro pre a fuel hf hlen
    obtain ⟨f, rfl⟩ : ∃ f, fuel = f + 1 := ⟨fuel - 1, by omega⟩
    have hf2 : rest.length < f := by simp at hf; omega
    have hlen1 : pre.length + rest.length + 2 ≤ UINT_MOD := by
      simp at hlen; omega
    obtain ⟨z, hz⟩ := ih (pre ++ [b]) b f hf2 (by simp; omega)
    refine ⟨z, ?_⟩
    have h1 : sizePredStrict (pre ++ a :: b :: rest).length
        = some (pre.length + rest.length + 1) := by
      have h2 : (pre ++ a :: b :: rest).length = (pre.length + rest.length + 1) + 1 := by
        simp; omega
      rw [h2, sizePredStrict_succ]
    have h3 : pre.length < pre.length + rest.length + 1 := by omega
    have hmod : (pre.length + 1) % UINT_MOD = pre.length + 1 :=
      Nat.mod_eq_of_lt (by omega)
    have hbody : shiftBodyU32 (pre ++ a :: b :: rest) pre.length
        = some (pre ++ b :: b :: rest) := by
      rw [shiftBodyU32_eq _ _ (by omega), shiftBody_append]
    have hz2 : shiftLoopU32 f (pre ++ b :: b :: rest) (pre.length + 1)
        = Run.done (pre ++ b :: (rest ++ [z])) := by
      simpa using hz
    simp only [shiftLoopU32, h1, h3, if_true, hbody, hmod, hz2]
    simp

theorem removeFrontU32_cons (a : entry) (rest : List entry) (fuel : Nat)
    (hf : rest.length < fuel) (hlen : (a :: rest).length ≤ UINT_MOD) :
    removeFrontU32 fuel (a :: rest) = Run.done rest := by
  obtain ⟨z, hz⟩ := shiftLoopU32_append rest [] a fuel hf (by simpa using hlen)
  simp only [List.nil_append, List.length_nil] at hz
  simp only [removeFrontU32, hz, pop_back]
  simp

/-- On a queue of at most `2 ^ 32` entries the scan with the counter of the
source returns what the scan with the natural-number counter returns, without
fault. -/
theorem scanLoopU32_eq (k : Str) :
    ∀ (fuel : Nat) (Q : List entry) (r : Str × List entry), Q.length < fuel →
      Q.length ≤ UINT_MOD → scanLoop fuel Q k = some r → scanLoopU32 fuel Q k = Run.done r := by
  intro fuel
  induction fuel with
  | zero => intro Q r hf; omega
  | succ f ih =>
    intro Q r hf hlen hr
    cases Q with
    | nil =>
      simp [scanLoop] at hr
      simp [scanLoopU32, hr]
    | cons a rest =>
      have hf1 : rest.length < f := by simp at hf; omega
      have hrm := removeFrontU32_cons a rest (f + 1) (by omega) hlen
      by_cases ha : a.key = k
      · simp [scanLoop, vecAt, ha, removeFront_cons] at hr
        simp [scanLoopU32, vecAt, ha, hrm, hr]
      · simp [scanLoop, vecAt, ha, removeFront_cons] at hr
        have hrec := ih rest r hf1 (by simp at hlen; omega) hr
        simp [scanLoopU32, vecAt, ha, hrm, hrec]

/-- On a queue of `2 ^ 32 + 1` entries the scan of the source never returns,
whatever the fuel. -/
theorem scanLoopU32_spin (fuel : Nat) (k : Str) (a : entry) (rest : List entry)
    (hlen : (a :: rest).length = UINT_MOD + 1) :
    scanLoopU32 fuel (a :: rest) k = Run.timeout := by
  cases fuel with
  | zero => rfl
  | succ f =>
    have hspin := shiftLoopU32_spin (f + 1) (a :: rest) 0 hlen UINT_MOD_pos
    have hrm : removeFrontU32 (f + 1) (a :: rest) = Run.timeout := by
      simp only [removeFrontU32, hspin]
    have hv : vecAt (a :: rest) 0 = some a := vecAt_append_cons [] a rest
    by_cases hk : a.key = k
    · simp only [scanLoopU32, hv, hrm]
      simp [hk]
    · simp only [scanLoopU32, hv, hrm]
      simp [hk]

theorem bigQueue_cons :
    bigQueue = ⟨"noun".toList, "dog".toList⟩ ::
      List.replicate UINT_MOD ⟨"noun".toList, "dog".toList⟩ := by
  unfold bigQueue
  rw [List.replicate_succ]

theorem bigQueue_length : bigQueue.length = UINT_MOD + 1 := by
  unfold bigQueue
  rw [List.length_replicate]

/-- C18, the code at the failing input: on a working queue of `2 ^ 32 + 1`
entries the shift loop of `scan_dictionary` does not end.  The counter `x` is
an `unsigned int` and stays below `2 ^ 32`, the bound `dictionary.size()-1` is
`2 ^ 32`, every access is within bounds, and so the test
`x < dictionary.size()-1` holds at every iteration: whatever the fuel, the loop
and the scan are still running. -/
theorem scan_dictionary_counter_wrap :
    bigQueue.length = 2 ^ 32 + 1 ∧
    (∀ fuel : Nat, shiftLoopU32 fuel bigQueue 0 = Run.timeout) ∧
    (∀ (fuel : Nat) (k : Str), scanLoopU32 fuel bigQueue k = Run.timeout) :=
  ⟨by rw [bigQueue_length]; rfl,
    fun fuel => shiftLoopU32_spin fuel bigQueue 0 bigQueue_length UINT_MOD_pos,
    fun fuel k => by
      rw [bigQueue_cons]
      exact scanLoopU32_spin fuel k _ _ (by rw [← bigQueue_cons]; exact bigQueue_length)⟩

/-- For every working queue of at most `2 ^ 32` entries and every key,
`scan_dictionary` with the `unsigned int` counter of the source returns within
`size + 1` iterations, with the result of `scan_dictionary`, where every index
out of bounds, every `pop_back` on an empty vector and every wrap-around of
`dictionary.size()-1` would end the run with a fault; an iteration on a
non-empty queue removes exactly its front entry, and on the empty queue the
loop is left without touching the shift loop. -/
theorem scanLoopU32_returns (Q : List entry) (k : Str) (hlen : Q.length ≤ UINT_MOD) :
    (∃ r Q1, scanLoopU32 (Q.length + 1) Q k = Run.done (r, Q1) ∧
      scan_dictionary Q k = some (r, Q1) ∧ Q1.length ≤ Q.length) ∧
    (∀ a rest fuel, (a :: rest).length ≤ UINT_MOD → rest.length < fuel →
      removeFrontU32 fuel (a :: rest) = Run.done rest ∧ rest.length < (a :: rest).length) ∧
    (∀ fuel, scanLoopU32 (fuel + 1) [] k = Run.done ('[' :: k ++ [']'], [])) := by
  refine ⟨?_, fun a rest fuel h1 h2 => ⟨removeFrontU32_cons a rest fuel h2 h1, by simp⟩,
    fun fuel => by simp [scanLoopU32]⟩
  obtain ⟨r, Q1, hscan, hsuf⟩ := scan_dictionary_suffix Q k
  exact ⟨r, Q1, scanLoopU32_eq k (Q.length + 1) Q (r, Q1) (by omega) hlen hscan, hscan,
    hsuf.length_le⟩

/-- The scan for `noun` in `adj red / noun dog / verb runs` with the counter of
the source. -/
theorem scanLoopU32_returns_example :
    dictAdjNounVerb.length ≤ UINT_MOD ∧
    ((∃ r Q1, scanLoopU32 (dictAdjNounVerb.length + 1) dictAdjNounVerb "noun".toList
        = Run.done (r, Q1) ∧
      scan_dictionary dictAdjNounVerb "noun".toList = some (r, Q1) ∧
      Q1.length ≤ dictAdjNounVerb.length) ∧
    (∀ a rest fuel, (a :: rest).length ≤ UINT_MOD → rest.length < fuel →
      removeFrontU32 fuel (a :: rest) = Run.done rest ∧ rest.length < (a :: rest).length) ∧
    (∀ fuel, scanLoopU32 (fuel + 1) [] "noun".toList
      = Run.done ('[' :: "noun".toList ++ [']'], []))) :=
  ⟨by decide, scanLoopU32_returns dictAdjNounVerb "noun".toList (by decide)⟩

/-! ## Stories that fit on one line -/

theorem resolve_tokens_cons (Q D : List entry) (t : Str) (toks : List Str) (ws : List Str)
    (Q1 : List entry) (h : resolve_tokens Q D (t :: toks) = some (ws, Q1)) :
    ∃ nw d1 ws1, bracketed_word Q D t = some (nw, d1) ∧
      resolve_tokens d1 D toks = some (ws1, Q1) ∧ ws = nw :: ws1 := by
  unfold resolve_tokens at h
  cases hb : bracketed_word Q D t with
  | none => simp [hb] at h
  | some r =>
    obtain ⟨nw, d1⟩ := r
    cases hr : resolve_tokens d1 D toks with
    | none => simp [hb, hr] at h
    | some r2 =>
      obtain ⟨ws1, Q2⟩ := r2
      simp [hb, hr] at h
      exact ⟨nw, d1, ws1, rfl, h.2 ▸ hr, h.1.symm⟩

/-- One iteration of the loop of `read_story` on a non-empty token. -/
theorem storyBody_eq (D : List entry) (st : StoryState) (t nw : Str) (d1 : List entry)
    (ht : t ≠ []) (hb : bracketed_word st.dictionary D t = some (nw, d1)) :
    storyBody D st t =
      (appendWord st.story st.sentence nw (trailingSpaces t)).map
        (fun r => ⟨r.1, d1, nw, r.2⟩) := by
  unfold storyBody
  rw [spacesFor_eq t ht, hb]
  cases ha : appendWord st.story st.sentence nw (trailingSpaces t) with
  | none => simp [ha]
  | some r => simp [ha]

/-- As long as the line stays within 70 characters every word and its spaces
are appended to the line buffer and nothing is committed. -/
theorem storyWords_fits (D : List entry) (toks : List Str) :
    ∀ (st : StoryState) (ws : List Str) (Q1 : List entry), (∀ t ∈ toks, t ≠ []) →
      resolve_tokens st.dictionary D toks = some (ws, Q1) →
      st.sentence.length + (lineOf toks ws).length ≤ 70 →
      ∃ w, storyWords D st toks = some ⟨st.story, Q1, w, st.sentence ++ lineOf toks ws⟩ := by
  induction toks with
  | nil =>
    intro st ws Q1 _ hres _
    simp [resolve_tokens] at hres
    refine ⟨st.word, ?_⟩
    simp [storyWords, lineOf, ← hres.2]
  | cons t toks ih =>
    intro st ws Q1 hne hres hlen
    obtain ⟨nw, d1, ws1, hb, hr, rfl⟩ := resolve_tokens_cons _ D t toks ws Q1 hres
    have ht : t ≠ [] := hne t (by simp)
    have hline : lineOf (t :: toks) (nw :: ws1) = nw ++ trailingSpaces t ++ lineOf toks ws1 := rfl
    rw [hline] at hlen ⊢
    have hfit : st.sentence.length + nw.length + (trailingSpaces t).length ≤ 70 := by
      simp only [List.length_append] at hlen; omega
    have hbody : storyBody D st t
        = some ⟨st.story, d1, nw, st.sentence ++ nw ++ trailingSpaces t⟩ := by
      rw [storyBody_eq D st t nw d1 ht hb, appendWord_fits _ _ _ _ hfit]
      rfl
    obtain ⟨w, hw⟩ := ih ⟨st.story, d1, nw, st.sentence ++ nw ++ trailingSpaces t⟩ ws1 Q1
      (fun x hx => hne x (by simp [hx])) hr
      (by simp only [List.length_append] at hlen ⊢; omega)
    refine ⟨w, ?_⟩
    simp only [storyWords, hbody, hw]
    simp

/-! ## Splitting the output on whitespace -/

theorem splitAux_spaces (sp : Str) (hsp : ∀ c ∈ sp, isspace c = true) (rest : Str) :
    splitAux [] (sp ++ rest) = splitAux [] rest := by
  induction sp with
  | nil => rfl
  | cons c sp ih =>
    have hc : isspace c = true := hsp c (by simp)
    have hrec := ih (fun x hx => hsp x (by simp [hx]))
    simp [splitAux, hc, hrec]

theorem splitAux_word (w : Str) (hw : ∀ c ∈ w, isspace c = false) :
    ∀ (cur rest : Str), splitAux cur (w ++ rest) = splitAux (cur ++ w) rest := by
  induction w with
  | nil => intro cur rest; simp
  | cons c w ih =>
    intro cur rest
    have hc : isspace c = false := hw c (by simp)
    have hrec := ih (fun x hx => hw x (by simp [hx])) (cur ++ [c]) rest
    simp [splitAux, hc, hrec]

/-- A text that ends in whitespace splits independently of what follows it. -/
theorem splitAux_append (A : Str) (c : Char) (hc : isspace c = true) (T : Str) :
    ∀ cur : Str, splitAux cur (A ++ c :: T) = splitAux cur (A ++ [c]) ++ splitAux [] T := by
  induction A with
  | nil =>
    intro cur
    by_cases hcur : cur = []
    · simp [splitAux, hc, hcur]
    · simp [splitAux, hc, hcur]
  | cons a A ih =>
    intro cur
    by_cases ha : isspace a = true
    · by_cases hcur : cur = []
      · simp [splitAux, ha, hcur, ih []]
      · simp [splitAux, ha, hcur, ih []]
    · simp [splitAux, ha, ih (cur ++ [a])]

/-- Behind a text that is empty or ends in whitespace the words of what
follows are simply added. -/
theorem splitWhitespace_append (S T : Str)
    (hS : S = [] ∨ ∃ A c, S = A ++ [c] ∧ isspace c = true) :
    splitWhitespace (S ++ T) = splitWhitespace S ++ splitWhitespace T := by
  rcases hS with rfl | ⟨A, c, rfl, hc⟩
  · simp [splitWhitespace, splitAux]
  · unfold splitWhitespace
    rw [List.append_assoc, List.singleton_append, splitAux_append A c hc T []]

/-- A word between whitespace is the one word of the text. -/
theorem splitWhitespace_word (lead w sp : Str) (hlead : ∀ c ∈ lead, isspace c = true)
    (hw : ∀ c ∈ w, isspace c = false) (hne : w ≠ [])
    (hsp : ∀ c ∈ sp, isspace c = true) (hspne : sp ≠ []) :
    splitWhitespace (lead ++ (w ++ sp)) = [w] := by
  unfold splitWhitespace
  rw [splitAux_spaces lead hlead, splitAux_word w hw [] sp]
  cases sp with
  | nil => exact absurd rfl hspne
  | cons c sp =>
    have hc : isspace c = true := hsp c (by simp)
    have hrest := splitAux_spaces sp (fun x hx => hsp x (by simp [hx])) []
    simp only [List.append_nil] at hrest
    simp [splitAux, hc, hne, hrest]

theorem trailingSpaces_spaces (t : Str) :
    (∀ c ∈ trailingSpaces t, isspace c = true) ∧ trailingSpaces t ≠ [] ∧
      ∃ A, trailingSpaces t = A ++ [' '] := by
  unfold trailingSpaces
  split
  · exact ⟨by decide, by simp, [' '], rfl⟩
  · exact ⟨by decide, by simp, [], rfl⟩

/-- One iteration of the loop of `read_story` adds to the text written so far
(committed lines, markers and line buffer) the resolved word, whitespace before
it and spaces behind it. -/
theorem storyBody_text (D : List entry) (st : StoryState) (t nw : Str) (d1 : List entry)
    (ht : t ≠ []) (hb : bracketed_word st.dictionary D t = some (nw, d1)) (hnw : nw ≠ []) :
    ∃ st1 lead sp, storyBody D st t = some st1 ∧ st1.dictionary = d1 ∧
      (∀ c ∈ lead, isspace c = true) ∧ (∀ c ∈ sp, isspace c = true) ∧ sp ≠ [] ∧
      st1.story.flatten ++ st1.sentence
        = (st.story.flatten ++ st.sentence) ++ (lead ++ (nw ++ sp)) ∧
      2 ≤ st1.sentence.length := by
  have hnwlen : 1 ≤ nw.length := List.length_pos.mpr hnw
  obtain ⟨hsp, hspne, A, hA⟩ := trailingSpaces_spaces t
  have hsplen : 1 ≤ (trailingSpaces t).length := List.length_pos.mpr hspne
  by_cases hfit : st.sentence.length + nw.length + (trailingSpaces t).length ≤ 70
  · refine ⟨⟨st.story, d1, nw, st.sentence ++ nw ++ trailingSpaces t⟩, [], trailingSpaces t,
      ?_, rfl, by simp, hsp, hspne, by simp, ?_⟩
    · rw [storyBody_eq D st t nw d1 ht hb, appendWord_fits _ _ _ _ hfit]
      rfl
    · simp only [List.length_append]; omega
  · have hwrap : 70 < st.sentence.length + nw.length + (trailingSpaces t).length := by omega
    refine ⟨⟨st.story ++ [st.sentence, ['\n']], d1, nw, nw ++ [' ']⟩, ['\n'], [' '],
      ?_, rfl, by decide, by decide, by simp, by simp, ?_⟩
    · rw [storyBody_eq D st t nw d1 ht hb, appendWord_wraps _ _ _ _ hwrap]
      rfl
    · simp only [List.length_append, List.length_singleton]; omega

/-- The text written by the iterations on a list of tokens splits into the
words that were there before followed by the resolved words. -/
theorem storyWords_text (D : List entry) (toks : List Str) :
    ∀ (st : StoryState) (ws : List Str) (Q1 : List entry),
      resolve_tokens st.dictionary D toks = some (ws, Q1) →
      (∀ w ∈ ws, w ≠ [] ∧ ∀ c ∈ w, isspace c = false) →
      (st.story.flatten ++ st.sentence = [] ∨
        ∃ A c, st.story.flatten ++ st.sentence = A ++ [c] ∧ isspace c = true) →
      st.sentence ≠ ['\n'] →
      ∃ st1, storyWords D st toks = some st1 ∧ st1.dictionary = Q1 ∧
        splitWhitespace (st1.story.flatten ++ st1.sentence)
          = splitWhitespace (st.story.flatten ++ st.sentence) ++ ws ∧
        st1.sentence ≠ ['\n'] := by
  induction toks with
  | nil =>
    intro st ws Q1 hres _ _ hlast
    simp [resolve_tokens] at hres
    exact ⟨st, rfl, hres.2, by simp [← hres.1], hlast⟩
  | cons t toks ih =>
    intro st ws Q1 hres hws hclean _
    obtain ⟨nw, d1, ws1, hb, hr, rfl⟩ := resolve_tokens_cons _ D t toks ws Q1 hres
    have hnw : nw ≠ [] := (hws nw (by simp)).1
    have hnwfree : ∀ c ∈ nw, isspace c = false := (hws nw (by simp)).2
    have ht : t ≠ [] := by
      intro h0
      subst h0
      rw [bracketed_word_of_head_ne st.dictionary D [] (by simp)] at hb
      simp at hb
      exact hnw hb.1
    obtain ⟨st1, lead, sp, hbody, hd, hlead, hsp, hspne, htext, hlen⟩ :=
      storyBody_text D st t nw d1 ht hb hnw
    have hclean1 : st1.story.flatten ++ st1.sentence = [] ∨
        ∃ A c, st1.story.flatten ++ st1.sentence = A ++ [c] ∧ isspace c = true := by
      right
      refine ⟨(st.story.flatten ++ st.sentence) ++ (lead ++ (nw ++ sp.dropLast)),
        sp.getLast hspne, ?_, hsp _ (List.getLast_mem hspne)⟩
      rw [htext]
      conv_lhs => rw [← List.dropLast_append_getLast hspne]
      simp
    have hlast1 : st1.sentence ≠ ['\n'] := by
      intro h0
      rw [h0] at hlen
      simp at hlen
    obtain ⟨st2, hrun, hd2, hsplit, hlast2⟩ :=
      ih st1 ws1 Q1 (by rw [hd]; exact hr) (fun w hw => hws w (by simp [hw])) hclean1 hlast1
    refine ⟨st2, ?_, hd2, ?_, hlast2⟩
    · simp [storyWords, hbody, hrun]
    · rw [hsplit, htext, splitWhitespace_append _ _ hclean,
        splitWhitespace_word lead nw sp hlead hnwfree hnw hsp hspne]
      simp

/-! ## From the text of a story to its tokens -/

theorem dropWhile_isspace_append (lead x : Str) (hlead : ∀ c ∈ lead, isspace c = true) :
    (lead ++ x).dropWhile isspace = x.dropWhile isspace := by
  induction lead with
  | nil => rfl
  | cons c lead ih =>
    have hc : isspace c = true := hlead c (by simp)
    simp [List.dropWhile, hc, ih (fun y hy => hlead y (by simp [hy]))]

theorem takeWhile_token (t r : Str) (ht : ∀ c ∈ t, isspace c = false)
    (hr : r = [] ∨ ∃ c r1, r = c :: r1 ∧ isspace c = true) :
    (t ++ r).takeWhile (fun c => !isspace c) = t ∧
    (t ++ r).dropWhile (fun c => !isspace c) = r := by
  induction t with
  | nil =>
    rcases hr with rfl | ⟨c, r1, rfl, hc⟩
    · simp
    · simp [List.takeWhile, List.dropWhile, hc]
  | cons a t ih =>
    have ha : isspace a = false := ht a (by simp)
    obtain ⟨h1, h2⟩ := ih (fun y hy => ht y (by simp [hy]))
    simp [List.takeWhile, List.dropWhile, ha, h1, h2]

/-- The extraction from a good stream that holds whitespace, a token and then
either nothing or whitespace delivers the token; it sets `eofbit` exactly when
nothing follows the token. -/
theorem extract_token (lead t r w0 : Str) (hlead : ∀ c ∈ lead, isspace c = true)
    (ht : ∀ c ∈ t, isspace c = false) (hne : t ≠ [])
    (hr : r = [] ∨ ∃ c r1, r = c :: r1 ∧ isspace c = true) :
    extract ⟨lead ++ (t ++ r), false, false⟩ w0 = (⟨r, r.isEmpty, false⟩, t) := by
  obtain ⟨a, t1, rfl⟩ : ∃ a t1, t = a :: t1 := by
    cases t with
    | nil => exact absurd rfl hne
    | cons a t1 => exact ⟨a, t1, rfl⟩
  have ha : isspace a = false := ht a (by simp)
  have h1 : (lead ++ (a :: t1 ++ r)).dropWhile isspace = a :: t1 ++ r := by
    rw [dropWhile_isspace_append lead _ hlead]
    simp [List.dropWhile, ha]
  obtain ⟨h2, h3⟩ := takeWhile_token (a :: t1) r ht hr
  unfold extract
  simp only [Bool.or_self, Bool.false_eq_true, if_false, h1, h2, h3]
  simp

theorem unwordsText_cons_cons (t t2 : Str) (ts : List Str) :
    unwordsText (t :: t2 :: ts) = t ++ ' ' :: unwordsText (t2 :: ts) := rfl

/-- On the text of non-empty, whitespace-free tokens separated by single
spaces the loop of `read_story` runs once per token. -/
theorem storyLoop_unwordsText (D : List entry) (toks : List Str) :
    ∀ (st : StoryState) (lead : Str) (fuel : Nat), toks ≠ [] →
      (∀ t ∈ toks, t ≠ [] ∧ ∀ c ∈ t, isspace c = false) →
      (∀ c ∈ lead, isspace c = true) → toks.length < fuel →
      storyLoop fuel D st ⟨lead ++ unwordsText toks, false, false⟩ = storyWords D st toks := by
  induction toks with
  | nil => intro st lead fuel h; exact absurd rfl h
  | cons t ts ih =>
    intro st lead fuel _ htok hlead hfuel
    obtain ⟨f, rfl⟩ : ∃ f, fuel = f + 1 := ⟨fuel - 1, by simp at hfuel; omega⟩
    have ht := htok t (by simp)
    cases ts with
    | nil =>
      have hx := extract_token lead t [] st.word hlead ht.2 ht.1 (Or.inl rfl)
      simp only [List.append_nil] at hx
      obtain ⟨f1, rfl⟩ : ∃ f1, f = f1 + 1 := ⟨f - 1, by simp at hfuel; omega⟩
      have hu : unwordsText [t] = t := rfl
      cases hb : storyBody D st t with
      | none => simp [storyLoop, storyWords, hu, hx, hb]
      | some st1 => simp [storyLoop, storyWords, hu, hx, hb]
    | cons t2 ts1 =>
      have hx := extract_token lead t (' ' :: unwordsText (t2 :: ts1)) st.word hlead ht.2 ht.1
        (Or.inr ⟨' ', _, rfl, by decide⟩)
      rw [unwordsText_cons_cons]
      cases hb : storyBody D st t with
      | none => simp [storyLoop, storyWords, hx, hb]
      | some st1 =>
        have hrec := ih st1 [' '] f (by simp) (fun x hx => htok x (by simp [hx]))
          (by decide) (by simp at hfuel ⊢; omega)
        simp only [List.singleton_append] at hrec
        simp [storyLoop, storyWords, hx, hb, hrec]

theorem length_le_unwordsText (toks : List Str) (htok : ∀ t ∈ toks, t ≠ []) :
    toks.length ≤ (unwordsText toks).length := by
  induction toks with
  | nil => simp
  | cons t ts ih =>
    have ht : 1 ≤ t.length := List.length_pos.mpr (htok t (by simp))
    cases ts with
    | nil => simpa [unwordsText] using ht
    | cons t2 ts1 =>
      have hrec := ih (fun x hx => htok x (by simp [hx]))
      rw [unwordsText_cons_cons]
      simp only [List.length_append, List.length_cons] at hrec ⊢
      omega

/-- On the text of at least one non-empty, whitespace-free token, the tokens
separated by single spaces and nothing behind the last one, the loop of
`read_story` runs its body exactly once on each token. -/
theorem read_story_unwordsText (story : List Str) (Q D : List entry) (toks : List Str)
    (hne : toks ≠ []) (htok : ∀ t ∈ toks, t ≠ [] ∧ ∀ c ∈ t, isspace c = false) :
    read_story story Q D (openStream (unwordsText toks)) =
      (storyWords D ⟨story, Q, [], []⟩ toks).map
        (fun st => (st.story ++ [st.sentence], st.dictionary)) := by
  have hlen := length_le_unwordsText toks (fun t ht => (htok t ht).1)
  have h := storyLoop_unwordsText D toks ⟨story, Q, [], []⟩ [] ((unwordsText toks).length + 2)
    hne htok (by simp) (by omega)
  simp only [List.nil_append] at h
  unfold read_story openStream
  rw [h]
  cases storyWords D ⟨story, Q, [], []⟩ toks <;> rfl

/-- When every resolved word has at most 69 characters, every committed line
and the line buffer stay within 70 characters. -/
theorem storyWords_line_bound (D : List entry) (toks : List Str) :
    ∀ (st : StoryState) (ws : List Str) (Q1 : List entry),
      resolve_tokens st.dictionary D toks = some (ws, Q1) → (∀ t ∈ toks, t ≠ []) →
      (∀ w ∈ ws, w.length ≤ 69) → (∀ l ∈ st.story, l.length ≤ 70) →
      st.sentence.length ≤ 70 →
      ∃ st1, storyWords D st toks = some st1 ∧ (∀ l ∈ st1.story, l.length ≤ 70) ∧
        st1.sentence.length ≤ 70 := by
  induction toks with
  | nil => intro st ws Q1 _ _ _ hstory hsent; exact ⟨st, rfl, hstory, hsent⟩
  | cons t toks ih =>
    intro st ws Q1 hres hne hws hstory hsent
    obtain ⟨nw, d1, ws1, hb, hr, rfl⟩ := resolve_tokens_cons _ D t toks ws Q1 hres
    have ht : t ≠ [] := hne t (by simp)
    have hnw : nw.length ≤ 69 := hws nw (by simp)
    by_cases hfit : st.sentence.length + nw.length + (trailingSpaces t).length ≤ 70
    · have hbody : storyBody D st t
          = some ⟨st.story, d1, nw, st.sentence ++ nw ++ trailingSpaces t⟩ := by
        rw [storyBody_eq D st t nw d1 ht hb, appendWord_fits _ _ _ _ hfit]
        rfl
      obtain ⟨st2, hrun, h1, h2⟩ := ih ⟨st.story, d1, nw, st.sentence ++ nw ++ trailingSpaces t⟩
        ws1 Q1 hr (fun x hx => hne x (by simp [hx])) (fun w hw => hws w (by simp [hw]))
        hstory (by simpa [Nat.add_assoc] using hfit)
      exact ⟨st2, by simp only [storyWords, hbody, hrun], h1, h2⟩
    · have hwrap : 70 < st.sentence.length + nw.length + (trailingSpaces t).length := by omega
      have hbody : storyBody D st t
          = some ⟨st.story ++ [st.sentence, ['\n']], d1, nw, nw ++ [' ']⟩ := by
        rw [storyBody_eq D st t nw d1 ht hb, appendWord_wraps _ _ _ _ hwrap]
        rfl
      have hstory1 : ∀ l ∈ st.story ++ [st.sentence, ['\n']], l.length ≤ 70 := by
        intro l hl
        rcases List.mem_append.mp hl with hl | hl
        · exact hstory l hl
        · simp at hl
          rcases hl with rfl | rfl
          · exact hsent
          · simp
      obtain ⟨st2, hrun, h1, h2⟩ := ih ⟨st.story ++ [st.sentence, ['\n']], d1, nw, nw ++ [' ']⟩
        ws1 Q1 hr (fun x hx => hne x (by simp [hx])) (fun w hw => hws w (by simp [hw]))
        hstory1 (by simp; omega)
      exact ⟨st2, by simp only [storyWords, hbody, hrun], h1, h2⟩

/-! ## Whole stories -/

/-- On a text with nothing behind its last token: when the tokens are
non-empty and whitespace-free and their resolved words with the trailing
spaces take at most 70 characters, `read_story` produces exactly one line, the
resolved words in order, each followed by the spaces its original token asks
for. -/
theorem read_story_fits_one_line (D : List entry) (toks ws : List Str) (Q1 : List entry)
    (h0 : toks ≠ []) (htok : ∀ t ∈ toks, t ≠ [] ∧ ∀ c ∈ t, isspace c = false)
    (hres : resolve_tokens D D toks = some (ws, Q1))
    (hlen : (lineOf toks ws).length ≤ 70) :
    read_story [] D D (openStream (unwordsText toks)) = some ([lineOf toks ws], Q1) := by
  obtain ⟨w, hw⟩ := storyWords_fits D toks ⟨[], D, [], []⟩ ws Q1 (fun t ht => (htok t ht).1)
    hres (by simpa using hlen)
  rw [read_story_unwordsText [] D D toks h0 htok, hw]
  simp

/-- On a text with nothing behind its last token: when the tokens are
non-empty and whitespace-free and so are their resolved words, the output of
`read_story` written out and split on whitespace is the list of resolved words,
and its last element is the line buffer, not a break marker. -/
theorem read_story_splits_back (D : List entry) (toks ws : List Str) (Q1 : List entry)
    (h0 : toks ≠ []) (htok : ∀ t ∈ toks, t ≠ [] ∧ ∀ c ∈ t, isspace c = false)
    (hres : resolve_tokens D D toks = some (ws, Q1))
    (hws : ∀ w ∈ ws, w ≠ [] ∧ ∀ c ∈ w, isspace c = false) :
    ∃ front last, read_story [] D D (openStream (unwordsText toks))
        = some (front ++ [last], Q1) ∧
      splitWhitespace (out_story (front ++ [last])) = ws ∧ last ≠ ['\n'] := by
  obtain ⟨st1, hrun, hd, hsplit, hlast⟩ :=
    storyWords_text D toks ⟨[], D, [], []⟩ ws Q1 hres hws (by simp) (by simp)
  refine ⟨st1.story, st1.sentence, ?_, ?_, hlast⟩
  · rw [read_story_unwordsText [] D D toks h0 htok, hrun]
    simp [hd]
  · have h1 : splitWhitespace [] = [] := rfl
    simpa [out_story, h1] using hsplit

/-! ## Claims about whole stories -/

/-- C11, the code at the failing input: the story `The [noun] [verb].` on
`noun dog / verb runs` has resolved words and spaces of 15 characters.  Without
anything behind the last token `read_story` gives the one line `The dog runs.`
and two spaces.  With a final newline the loop runs once more on the word left
in `word`, and the line is `The dog runs.  runs.  `.  On the empty story the
result is undefined. -/
theorem read_story_single_line_newline :
    splitWhitespace "The [noun] [verb].\n".toList
      = ["The".toList, "[noun]".toList, "[verb].".toList] ∧
    resolve_tokens dictNounVerb dictNounVerb ["The".toList, "[noun]".toList, "[verb].".toList]
      = some (["The".toList, "dog".toList, "runs.".toList], []) ∧
    lineOf ["The".toList, "[noun]".toList, "[verb].".toList]
      ["The".toList, "dog".toList, "runs.".toList] = "The dog runs.  ".toList ∧
    read_story [] dictNounVerb dictNounVerb (openStream "The [noun] [verb].".toList)
      = some (["The dog runs.  ".toList], []) ∧
    read_story [] dictNounVerb dictNounVerb (openStream "The [noun] [verb].\n".toList)
      = some (["The dog runs.  runs.  ".toList], []) ∧
    read_story [] dictNounVerb dictNounVerb (openStream []) = none :=
  ⟨by decide, by decide, by decide, by decide, by decide, by decide⟩

/-- C19, the code at the failing input: the story `red dog` with a final
newline has the two tokens `red` and `dog`, which resolve to themselves, but
the loop of `read_story` runs once more on the word left in `word`, and the
output splits into `red`, `dog`, `dog`: the last word is duplicated.  Without
the newline the output splits into `red`, `dog`. -/
theorem read_story_keeps_words_newline :
    splitWhitespace "red dog\n".toList = ["red".toList, "dog".toList] ∧
    resolve_tokens [] [] ["red".toList, "dog".toList]
      = some (["red".toList, "dog".toList], []) ∧
    read_story [] [] [] (openStream "red dog\n".toList) = some (["red dog dog ".toList], []) ∧
    splitWhitespace (out_story ["red dog dog ".toList])
      = ["red".toList, "dog".toList, "dog".toList] ∧
    read_story [] [] [] (openStream "red dog".toList) = some (["red dog ".toList], []) ∧
    splitWhitespace (out_story ["red dog ".toList]) = ["red".toList, "dog".toList] :=
  ⟨by decide, by decide, by decide, by decide, by decide, by decide⟩

end Madlibs
